import Mathlib

/-!
Verification of the electrification-propagation core in pyonsset/elec.py.

The module is embedded shallowly: the per-cell input columns (x, y,
projected population, terrain class) become functions from row indices
to rationals, the mutable status and cell_path arrays become lists that
are threaded through the relaxation loop, and the 2D hash table becomes
a function from bucket coordinates to the list of rows appended into
that bucket.  The constants EXISTING_GRID_COST_RATIO , MAX_GRID_EXTEND
and ELEC_DISTS are imported by elec.py from pyonsset.constants, which is
not among the sources; they appear here as explicit parameters R, M and
elec_dists.
-/

namespace PyOnSSET

/-- Python int() truncation toward zero, applied to a rational value. -/
def pyInt (q : ℚ) : ℤ := if 0 ≤ q then ⌊q⌋ else ⌈q⌉

/-- Helper for separate_elec_status: walks the status list, keeping the
running row index, exactly as enumerate does in the source. -/
def separate_elec_status_go : ℕ → List ℕ → List ℕ × List ℕ
  | _, [] => ([], [])
  | i, s :: rest =>
    if s ≠ 0 then
      (i :: (separate_elec_status_go (i + 1) rest).1,
        (separate_elec_status_go (i + 1) rest).2)
    else
      ((separate_elec_status_go (i + 1) rest).1,
        i :: (separate_elec_status_go (i + 1) rest).2)

/-- Lines 15-31: split row indices into electrified (truthy status) and
unelectrified (zero status) lists, both in input order. -/
def separate_elec_status (elec_status : List ℕ) : List ℕ × List ℕ :=
  separate_elec_status_go 0 elec_status

/-- Lines 34-49: build the 2D hash table.  The defaultdict of lists is
modelled as a function from a bucket coordinate pair to the list of
unelectrified rows appended into that bucket, in iteration order. -/
def get_2d_hash_table (x y : ℕ → ℚ) (unelectrified : List ℕ) (distance_limit : ℚ) :
    ℤ → ℤ → List ℕ :=
  unelectrified.foldl
    (fun tbl i => fun a b =>
      if pyInt (x i / distance_limit) = a ∧ pyInt (y i / distance_limit) = b then
        tbl a b ++ [i]
      else tbl a b)
    (fun _ _ => [])

/-- Lines 52-80: collect the hash-table entries of the bucket of the
electrified row and of its eight adjacent buckets, concatenated in the
exact order of the nine extend calls in the source. -/
def get_unelectrified_rows (hash_table : ℤ → ℤ → List ℕ) (elec_row : ℕ)
    (x y : ℕ → ℚ) (distance_limit : ℚ) : List ℕ :=
  hash_table (pyInt (x elec_row / distance_limit)) (pyInt (y elec_row / distance_limit)) ++
  hash_table (pyInt (x elec_row / distance_limit)) (pyInt (y elec_row / distance_limit) - 1) ++
  hash_table (pyInt (x elec_row / distance_limit)) (pyInt (y elec_row / distance_limit) + 1) ++
  hash_table (pyInt (x elec_row / distance_limit) + 1) (pyInt (y elec_row / distance_limit)) ++
  hash_table (pyInt (x elec_row / distance_limit) + 1) (pyInt (y elec_row / distance_limit) - 1) ++
  hash_table (pyInt (x elec_row / distance_limit) + 1) (pyInt (y elec_row / distance_limit) + 1) ++
  hash_table (pyInt (x elec_row / distance_limit) - 1) (pyInt (y elec_row / distance_limit)) ++
  hash_table (pyInt (x elec_row / distance_limit) - 1) (pyInt (y elec_row / distance_limit) - 1) ++
  hash_table (pyInt (x elec_row / distance_limit) - 1) (pyInt (y elec_row / distance_limit) + 1)

/-- Lines 120-121 as they actually parse in Python: the penalty of the
candidate multiplies the truth value of the conjunction, and the
resulting number is tested for being nonzero.  Inside the conjunction
the x-axis term carries no penalty factor while the y-axis term does. -/
def reach_condition (p R ex d dxAbs dyAbs : ℚ) : Bool :=
  decide (p * (if dxAbs + R * ex < d ∧ p * dyAbs + R * ex < d then (1 : ℚ) else 0) ≠ 0)

/-- The reachability test as the specification states it: the terrain
penalty scales the x-axis distance term exactly as it scales the y-axis
distance term.  Written from the words of the spec for comparison with
reach_condition above. -/
def spec_reach_condition (p R ex d dxAbs dyAbs : ℚ) : Bool :=
  decide (p * dxAbs + R * ex < d ∧ p * dyAbs + R * ex < d)

/-- Line 95: the terrain cost penalty 1 + 0.1 / classification^2, with
the total division of the rationals. -/
def grid_penalty (c : ℚ) : ℚ := 1 + (1 / 10) / c ^ 2

/-- Division with an explicit error branch for a zero denominator. -/
def checked_div (a b : ℚ) : Option ℚ := if b = 0 then none else some (a / b)

/-- Line 95 with the division guarded: the error branch of the division
is reached exactly when the classification is zero. -/
def grid_penalty_checked (c : ℚ) : Option ℚ :=
  (checked_div (1 / 10) (c ^ 2)).map (fun q => 1 + q)

/-- Modelled from the spec: the inputs of one country run of
elec_single_country.  The per-cell columns x, y, pop and the derived
penalty column are functions of the row index; R stands for the
constant EXISTING_GRID_COST_RATIO and M for the constant
MAX_GRID_EXTEND , both imported by elec.py from pyonsset.constants,
which is not among the sources. -/
structure Params where
  x : ℕ → ℚ
  y : ℕ → ℚ
  pop : ℕ → ℚ
  pen : ℕ → ℚ
  R : ℚ
  M : ℚ

/-- Lines 113-126: the body of the inner candidate loop for one
candidate u of one frontier cell elec.  The state triple carries the
status list, the cell_path list and the changes list.  The status read
defaults to 1 so that an out-of-range index can never be claimed; every
index produced by the hash table is in range in elec_single_country. -/
def try_claim (P : Params) (d plim : ℚ) (elec : ℕ)
    (s : List ℕ × List ℚ × List ℕ) (u : ℕ) : List ℕ × List ℚ × List ℕ :=
  let ex := s.2.1.getD elec 0
  if reach_condition (P.pen u) P.R ex d |P.x elec - P.x u| |P.y elec - P.y u| then
    if P.pop u > plim ∧ ex < P.M then
      if s.1.getD u 1 = 0 then
        (s.1.set u 1, s.2.1.set u (ex + d), s.2.2 ++ [u])
      else s
    else s
  else s

/-- Fold try_claim over an explicit list of (frontier cell, candidate)
pairs; the double loop of one pass is this fold over its flattened pair
list. -/
def process_pairs (P : Params) (d plim : ℚ) (pairs : List (ℕ × ℕ))
    (s : List ℕ × List ℚ × List ℕ) : List ℕ × List ℚ × List ℕ :=
  pairs.foldl (fun s2 pr => try_claim P d plim pr.1 s2 pr.2) s

/-- The (frontier cell, candidate) pairs visited by one pass, in
processing order: frontier order outside, candidate-list order inside. -/
def pass_pairs (P : Params) (d : ℚ) (ht : ℤ → ℤ → List ℕ) : List ℕ → List (ℕ × ℕ)
  | [] => []
  | e :: fr =>
    (get_unelectrified_rows ht e P.x P.y d).map (fun u => (e, u)) ++ pass_pairs P d ht fr

/-- Lines 108-126: one pass of the while loop, a double fold over the
frontier and over each candidate list, starting from an empty changes
list. -/
def do_pass (P : Params) (d plim : ℚ) (ht : ℤ → ℤ → List ℕ) (frontier : List ℕ)
    (st : List ℕ) (cp : List ℚ) : List ℕ × List ℚ × List ℕ :=
  frontier.foldl
    (fun s elec =>
      (get_unelectrified_rows ht elec P.x P.y d).foldl
        (fun s2 u => try_claim P d plim elec s2 u) s)
    (st, cp, [])

/-- Lines 107-128: the while loop, written with explicit fuel.  Each
pass with a nonempty changes list flips at least one status entry from
zero to one, so the count of zero entries plus one bounds the number of
passes; the fuel lemmas below prove that any fuel past that bound gives
the same result. -/
def elec_while_fuel (P : Params) (d plim : ℚ) (ht : ℤ → ℤ → List ℕ) :
    ℕ → List ℕ → List ℕ → List ℚ → List ℕ × List ℚ
  | 0, _, st, cp => (st, cp)
  | Nat.succ n, frontier, st, cp =>
    if frontier.isEmpty then (st, cp)
    else
      if (do_pass P d plim ht frontier st cp).2.2.isEmpty then
        ((do_pass P d plim ht frontier st cp).1, (do_pass P d plim ht frontier st cp).2.1)
      else
        elec_while_fuel P d plim ht n (do_pass P d plim ht frontier st cp).2.2
          (do_pass P d plim ht frontier st cp).1 (do_pass P d plim ht frontier st cp).2.1

/-- The while loop of lines 107-128, run with sufficient fuel. -/
def elec_while (P : Params) (d plim : ℚ) (ht : ℤ → ℤ → List ℕ)
    (frontier st : List ℕ) (cp : List ℚ) : List ℕ × List ℚ :=
  elec_while_fuel P d plim ht (st.count 0 + 1) frontier st cp

/-- Lines 103-128: one distance band.  Split the statuses, build the
hash table over the unelectrified rows with bucket size equal to the
band distance, seed the frontier with the electrified rows, and run the
relaxation loop. -/
def elec_band (P : Params) (d plim : ℚ) (st : List ℕ) (cp : List ℚ) :
    List ℕ × List ℚ :=
  elec_while P d plim
    (get_2d_hash_table P.x P.y (separate_elec_status st).2 d)
    (separate_elec_status st).1 st cp

/-- Lines 101-130: iterate the zipped band list; after each band the
status snapshot is recorded as the output column keyed by that band
distance, and the end state of the band seeds the next band. -/
def elec_bands (P : Params) :
    List (ℚ × ℚ) → List ℕ → List ℚ → List (ℚ × List ℕ) × (List ℕ × List ℚ)
  | [], st, cp => ([], (st, cp))
  | b :: rest, st, cp =>
    ((b.1, (elec_band P b.1 b.2 st cp).1) ::
        (elec_bands P rest (elec_band P b.1 b.2 st cp).1 (elec_band P b.1 b.2 st cp).2).1,
      (elec_bands P rest (elec_band P b.1 b.2 st cp).1 (elec_band P b.1 b.2 st cp).2).2)

/-- Lines 83-132: one country run.  The penalty column is computed from
the classification column by grid_penalty, cell_path starts as a zero
vector of the status length, the first entry of elec_dists is skipped,
and the band list is the zip of the remaining distances with the
population cutoffs.  Besides the output columns, the final status and
cell_path state is returned so that facts about them can be stated. -/
def elec_single_country (x y pop cls : ℕ → ℚ) (R M : ℚ)
    (elec_dists num_people : List ℚ) (status0 : List ℕ) :
    List (ℚ × List ℕ) × (List ℕ × List ℚ) :=
  elec_bands ⟨x, y, pop, fun i => grid_penalty (cls i), R, M⟩
    ((elec_dists.drop 1).zip num_people) status0 (List.replicate status0.length 0)

/-- One settlement row, with the columns read by run_elec. -/
structure Settlement where
  country : String
  sx : ℚ
  sy : ℚ
  pop_future : ℚ
  classification : ℚ
  elec_current : ℚ
  grid_dist_planned : ℚ

/-- Lines 176-183: the per-row baseline lambda.  The flag is 1 when the
cell is currently electrified, or when its planned grid distance is
under the band-4 distance and its future population is over the band-4
cutoff, or the same at band 9; otherwise 0. -/
def pre_elec_status (elec_current grid_dist pop_future d4 t4 d9 t9 : ℚ) : ℕ :=
  if elec_current = 1 ∨ (grid_dist < d4 ∧ pop_future > t4) ∨
      (grid_dist < d9 ∧ pop_future > t9) then 1 else 0

/-- Lines 176-183 applied over the rows of one country: the thresholds
are looked up in the per-country column of the cutoff table at the
distances with index 4 and index 9 in elec_dists. -/
def classify_country (rows : List Settlement) (elec_dists : List ℚ) (np_c : ℚ → ℚ) :
    List ℕ :=
  rows.map (fun r =>
    pre_elec_status r.elec_current r.grid_dist_planned r.pop_future
      (elec_dists.getD 4 0) (np_c (elec_dists.getD 4 0))
      (elec_dists.getD 9 0) (np_c (elec_dists.getD 9 0)))

/-- Modelled from the spec: the environment read by run_elec.  The flag
num_people_exists stands for the isfile check on the scenario cutoff
table, np_countries for its column names, np for the lookup of a cutoff
by country and band distance, and np_list for the per-country cutoff
column as a list. -/
structure RunInputs where
  num_people_exists : Bool
  np_countries : List String
  np : String → ℚ → ℚ
  np_list : String → List ℚ
  settlements : List Settlement
  elec_dists : List ℚ
  R : ℚ
  M : ℚ

/-- The two preflight failures of run_elec. -/
inductive RunError where
  | configMissing : RunError
  | invalidSelection : RunError

/-- Lines 171-188 for one country: compute the baseline column over the
country rows, then run elec_single_country on them with the baseline as
the starting status. -/
def run_country (inp : RunInputs) (c : String) :
    String × List ℕ × (List (ℚ × List ℕ) × (List ℕ × List ℚ)) :=
  (c,
    classify_country (inp.settlements.filter (fun r => decide (r.country = c)))
      inp.elec_dists (inp.np c),
    elec_single_country
      (fun i => ((inp.settlements.filter (fun r => decide (r.country = c))).map
        Settlement.sx).getD i 0)
      (fun i => ((inp.settlements.filter (fun r => decide (r.country = c))).map
        Settlement.sy).getD i 0)
      (fun i => ((inp.settlements.filter (fun r => decide (r.country = c))).map
        Settlement.pop_future).getD i 0)
      (fun i => ((inp.settlements.filter (fun r => decide (r.country = c))).map
        Settlement.classification).getD i 0)
      inp.R inp.M inp.elec_dists (inp.np_list c)
      (classify_country (inp.settlements.filter (fun r => decide (r.country = c)))
        inp.elec_dists (inp.np c)))

/-- Lines 135-193: run_elec with its file reads abstracted into
RunInputs.  The missing cutoff table aborts first; a selection other
than the sentinel that is not a known country aborts next; otherwise
every selected country is processed and the results returned. -/
def run_elec_model (inp : RunInputs) (selection : String) :
    Except RunError (List (String × List ℕ × (List (ℚ × List ℕ) × (List ℕ × List ℚ)))) :=
  if inp.num_people_exists = false then Except.error RunError.configMissing
  else if selection ≠ "all" then
    if selection ∈ inp.np_countries then Except.ok [run_country inp selection]
    else Except.error RunError.invalidSelection
  else Except.ok (inp.np_countries.map (run_country inp))

/-- Concrete x column for the order counterexample: all cells share one
x value. -/
def c2x : ℕ → ℚ := fun _ => 1 / 2

/-- Concrete y column for the order counterexample: row 0 sits in the
bucket above rows 1 and 2. -/
def c2y : ℕ → ℚ := fun i => if i = 0 then 3 / 2 else 1 / 2

/-- Concrete parameters for the evaluation examples: two cells at the
origin, population 5, penalty 1, cost fraction 1, extension cap 50. -/
def exParams : Params := ⟨fun _ => 0, fun _ => 0, fun _ => 5, fun _ => 1, 1, 50⟩

/-- Concrete hash table for the evaluation examples: cell 1 sits in the
origin bucket. -/
def exHash : ℤ → ℤ → List ℕ := fun a b => if a = 0 ∧ b = 0 then [1] else []

/-- Concrete run inputs for the preflight examples: the cutoff table
exists and knows one country. -/
def exInputs : RunInputs := ⟨true, ["a"], fun _ _ => 0, fun _ => [], [], [], 1, 50⟩

/-- Writing inside the range and reading back at the same index yields
the written value, for any default. -/
theorem getD_set_self_of_lt {α : Type} (l : List α) (u : ℕ) (a d0 : α)
    (h : u < l.length) : (l.set u a).getD u d0 = a := by
  rw [List.getD_eq_getElem?_getD, List.getElem?_set_self h]
  rfl

/-- Writing at one index leaves reads at any other index unchanged. -/
theorem getD_set_of_ne {α : Type} (l : List α) (u i : ℕ) (a d0 : α)
    (h : u ≠ i) : (l.set u a).getD i d0 = l.getD i d0 := by
  rw [List.getD_eq_getElem?_getD, List.getElem?_set_ne h, ← List.getD_eq_getElem?_getD]

/-- A read with default 1 that returns 0 must have hit the list. -/
theorem lt_of_getD_one {st : List ℕ} {u : ℕ} (h : st.getD u 1 = 0) :
    u < st.length := by
  by_contra hc
  push_neg at hc
  rw [List.getD_eq_default _ _ hc] at h
  exact one_ne_zero h

/-- A read with default 1 that returns 0 also returns 0 with default 0. -/
theorem getD_zero_of_one {st : List ℕ} {u : ℕ} (h : st.getD u 1 = 0) :
    st.getD u 0 = 0 := by
  have hlt := lt_of_getD_one h
  rw [List.getD_eq_getElem _ _ hlt] at h ⊢
  exact h

/-- Claiming a cell trades exactly one zero status entry for a one. -/
theorem count_zero_set {st : List ℕ} {u : ℕ} (h : st.getD u 1 = 0) :
    (st.set u 1).count 0 + 1 = st.count 0 := by
  have hlt := lt_of_getD_one h
  have hu : st[u] = 0 := by rw [List.getD_eq_getElem _ _ hlt] at h; exact h
  have hpos : 0 < st.count 0 := by
    rw [List.count_pos_iff]
    rw [← hu]
    exact List.getElem_mem hlt
  rw [List.count_set 1 0 st u hlt]
  simp [hu]
  omega

/-- Dichotomy of the candidate step: either nothing happens, or the
candidate had status zero, its population is over the cutoff, the
claiming cell is under the extension cap, and the three state
components are updated exactly as on lines 124-126. -/
theorem try_claim_cases (P : Params) (d plim : ℚ) (elec : ℕ) (st : List ℕ)
    (cp : List ℚ) (ch : List ℕ) (u : ℕ) :
    try_claim P d plim elec (st, cp, ch) u = (st, cp, ch) ∨
      (st.getD u 1 = 0 ∧ P.pop u > plim ∧ cp.getD elec 0 < P.M ∧
        try_claim P d plim elec (st, cp, ch) u =
          (st.set u 1, cp.set u (cp.getD elec 0 + d), ch ++ [u])) := by
  unfold try_claim
  dsimp only
  split_ifs with h1 h2 h3
  · exact Or.inr ⟨h3, h2.1, h2.2, rfl⟩
  · exact Or.inl rfl
  · exact Or.inl rfl
  · exact Or.inl rfl

/-- Unfolding lemma for the pair fold. -/
theorem process_pairs_cons (P : Params) (d plim : ℚ) (pr : ℕ × ℕ)
    (rest : List (ℕ × ℕ)) (s : List ℕ × List ℚ × List ℕ) :
    process_pairs P d plim (pr :: rest) s =
      process_pairs P d plim rest (try_claim P d plim pr.1 s pr.2) := rfl

/-- A cell whose status is already nonzero keeps its status and its
cell_path entry across any sequence of candidate steps: the first claim
of a cell is never overridden. -/
theorem process_pairs_stable (P : Params) (d plim : ℚ) (pairs : List (ℕ × ℕ)) :
    ∀ st cp ch i, st.getD i 0 ≠ 0 →
      (process_pairs P d plim pairs (st, cp, ch)).1.getD i 0 = st.getD i 0 ∧
      (process_pairs P d plim pairs (st, cp, ch)).2.1.getD i 0 = cp.getD i 0 := by
  induction pairs with
  | nil => intro st cp ch i hi; exact ⟨rfl, rfl⟩
  | cons pr rest ih =>
    intro st cp ch i hi
    rcases try_claim_cases P d plim pr.1 st cp ch pr.2 with heq | ⟨h0, hpop, hM, heq⟩
    · rw [process_pairs_cons, heq]
      exact ih st cp ch i hi
    · rw [process_pairs_cons, heq]
      have hne : pr.2 ≠ i := by
        intro e
        apply hi
        rw [← e]
        exact getD_zero_of_one h0
      have h1 : (st.set pr.2 1).getD i 0 = st.getD i 0 :=
        getD_set_of_ne st pr.2 i 1 0 hne
      have h2 : (cp.set pr.2 (cp.getD pr.1 0 + d)).getD i 0 = cp.getD i 0 :=
        getD_set_of_ne cp pr.2 i _ 0 hne
      have h3 := ih (st.set pr.2 1) (cp.set pr.2 (cp.getD pr.1 0 + d))
        (ch ++ [pr.2]) i (by rw [h1]; exact hi)
      exact ⟨h3.1.trans h1, h3.2.trans h2⟩

/-- Conservation: every appended change corresponds to exactly one
status entry flipped from zero to one, so the count of zeros plus the
length of the changes list is invariant. -/
theorem process_pairs_conserve (P : Params) (d plim : ℚ) (pairs : List (ℕ × ℕ)) :
    ∀ st cp ch,
      (process_pairs P d plim pairs (st, cp, ch)).1.count 0 +
        (process_pairs P d plim pairs (st, cp, ch)).2.2.length =
      st.count 0 + ch.length := by
  induction pairs with
  | nil => intro st cp ch; rfl
  | cons pr rest ih =>
    intro st cp ch
    rcases try_claim_cases P d plim pr.1 st cp ch pr.2 with heq | ⟨h0, hpop, hM, heq⟩
    · rw [process_pairs_cons, heq]
      exact ih st cp ch
    · rw [process_pairs_cons, heq]
      have hc := count_zero_set h0
      have h3 := ih (st.set pr.2 1) (cp.set pr.2 (cp.getD pr.1 0 + d)) (ch ++ [pr.2])
      rw [h3]
      simp only [List.length_append, List.length_cons, List.length_nil]
      omega

/-- The changes list only grows: the fold appends and never removes. -/
theorem process_pairs_ch_extends (P : Params) (d plim : ℚ) (pairs : List (ℕ × ℕ)) :
    ∀ st cp ch, ∃ t, (process_pairs P d plim pairs (st, cp, ch)).2.2 = ch ++ t := by
  induction pairs with
  | nil => intro st cp ch; exact ⟨[], by simp [process_pairs]⟩
  | cons pr rest ih =>
    intro st cp ch
    rcases try_claim_cases P d plim pr.1 st cp ch pr.2 with heq | ⟨h0, hpop, hM, heq⟩
    · rw [process_pairs_cons, heq]
      exact ih st cp ch
    · rw [process_pairs_cons, heq]
      obtain ⟨t, ht⟩ := ih (st.set pr.2 1) (cp.set pr.2 (cp.getD pr.1 0 + d)) (ch ++ [pr.2])
      exact ⟨pr.2 :: t, by rw [ht]; simp⟩

/-- Any row in the final changes list that was not there initially had
status zero when the fold started. -/
theorem process_pairs_ch_origin (P : Params) (d plim : ℚ) (pairs : List (ℕ × ℕ)) :
    ∀ st cp ch u, u ∈ (process_pairs P d plim pairs (st, cp, ch)).2.2 →
      u ∈ ch ∨ st.getD u 0 = 0 := by
  induction pairs with
  | nil => intro st cp ch u h; exact Or.inl h
  | cons pr rest ih =>
    intro st cp ch u h
    rcases try_claim_cases P d plim pr.1 st cp ch pr.2 with heq | ⟨h0, hpop, hM, heq⟩
    · rw [process_pairs_cons, heq] at h
      exact ih st cp ch u h
    · rw [process_pairs_cons, heq] at h
      rcases ih _ _ _ u h with hin | hz
      · rcases List.mem_append.mp hin with hc | hu
        · exact Or.inl hc
        · right
          have he : u = pr.2 := by simpa using hu
          rw [he]
          exact getD_zero_of_one h0
      · by_cases he : u = pr.2
        · right
          rw [he]
          exact getD_zero_of_one h0
        · right
          rw [← getD_set_of_ne st pr.2 u 1 0 (fun e => he e.symm)]
          exact hz

/-- If every row already in the changes list has status one, the final
changes list has no duplicate rows and every row in it ends with status
one: no cell is ever claimed twice. -/
theorem process_pairs_ch_claimed (P : Params) (d plim : ℚ) (pairs : List (ℕ × ℕ)) :
    ∀ st cp ch, (∀ v ∈ ch, st.getD v 0 = 1) → ch.Nodup →
      (process_pairs P d plim pairs (st, cp, ch)).2.2.Nodup ∧
      ∀ v ∈ (process_pairs P d plim pairs (st, cp, ch)).2.2,
        (process_pairs P d plim pairs (st, cp, ch)).1.getD v 0 = 1 := by
  induction pairs with
  | nil => intro st cp ch h1 h2; exact ⟨h2, h1⟩
  | cons pr rest ih =>
    intro st cp ch h1 h2
    rcases try_claim_cases P d plim pr.1 st cp ch pr.2 with heq | ⟨h0, hpop, hM, heq⟩
    · rw [process_pairs_cons, heq]
      exact ih st cp ch h1 h2
    · rw [process_pairs_cons, heq]
      have hlt := lt_of_getD_one h0
      have hst0 : st.getD pr.2 0 = 0 := getD_zero_of_one h0
      have hnotin : pr.2 ∉ ch := by
        intro hm
        have h10 := h1 pr.2 hm
        rw [hst0] at h10
        exact zero_ne_one h10
      apply ih
      · intro v hv
        rcases List.mem_append.mp hv with hc | hu
        · have hv1 := h1 v hc
          have hne : pr.2 ≠ v := fun e => hnotin (e ▸ hc)
          rw [getD_set_of_ne st pr.2 v 1 0 hne]
          exact hv1
        · have he : v = pr.2 := by simpa using hu
          rw [he, getD_set_self_of_lt st pr.2 1 0 hlt]
      · rw [List.nodup_append]
        exact ⟨h2, List.nodup_singleton _, List.disjoint_singleton.mpr hnotin⟩

/-- Provenance of a claim: when the fold changes the status of row i,
the row started unelectrified and ends electrified, its population is
over the cutoff, it was appended to the changes list, and some visited
pair claimed it from a cell that was under the extension cap, setting
its cell_path entry to the entry of that cell plus the band distance.
Requires that every claiming cell in the pair list is electrified at
the start and that the two state lists have equal length. -/
theorem process_pairs_claim (P : Params) (d plim : ℚ) (pairs : List (ℕ × ℕ)) :
    ∀ st cp ch, (∀ pr ∈ pairs, st.getD pr.1 0 ≠ 0) → cp.length = st.length →
      ∀ i, (process_pairs P d plim pairs (st, cp, ch)).1.getD i 0 ≠ st.getD i 0 →
        st.getD i 0 = 0 ∧
        (process_pairs P d plim pairs (st, cp, ch)).1.getD i 0 = 1 ∧
        P.pop i > plim ∧
        i ∈ (process_pairs P d plim pairs (st, cp, ch)).2.2 ∧
        ∃ e, (e, i) ∈ pairs ∧ cp.getD e 0 < P.M ∧
          (process_pairs P d plim pairs (st, cp, ch)).2.1.getD i 0 =
            cp.getD e 0 + d := by
  induction pairs with
  | nil => intro st cp ch hf hlen i hi; exact absurd rfl hi
  | cons pr rest ih =>
    obtain ⟨pe, pu⟩ := pr
    intro st cp ch hf hlen i hi
    have hcons : ∀ s, process_pairs P d plim ((pe, pu) :: rest) s =
        process_pairs P d plim rest (try_claim P d plim pe s pu) := fun s => rfl
    rcases try_claim_cases P d plim pe st cp ch pu with heq | ⟨h0, hpop, hM, heq⟩
    · rw [hcons, heq] at hi ⊢
      obtain ⟨a1, a2, a3, a4, e, he, hM2, hcp⟩ :=
        ih st cp ch (fun q hq => hf q (List.mem_cons_of_mem _ hq)) hlen i hi
      exact ⟨a1, a2, a3, a4, e, List.mem_cons_of_mem _ he, hM2, hcp⟩
    · rw [hcons, heq] at hi ⊢
      have hlt := lt_of_getD_one h0
      have hst0 : st.getD pu 0 = 0 := getD_zero_of_one h0
      by_cases hiu : i = pu
      · rw [← hiu] at hlt hst0 hpop heq hi ⊢
        have hlt2 : i < cp.length := by rw [hlen]; exact lt_of_getD_one (hiu ▸ h0)
        have hset1 : (st.set i 1).getD i 0 = 1 :=
          getD_set_self_of_lt st i 1 0 (hiu ▸ lt_of_getD_one h0)
        have hstab := process_pairs_stable P d plim rest (st.set i 1)
          (cp.set i (cp.getD pe 0 + d)) (ch ++ [i]) i (by rw [hset1]; exact one_ne_zero)
        refine ⟨hst0, by rw [hstab.1, hset1], hpop, ?_, pe, ?_, hM, ?_⟩
        · obtain ⟨t, ht⟩ := process_pairs_ch_extends P d plim rest (st.set i 1)
            (cp.set i (cp.getD pe 0 + d)) (ch ++ [i])
          rw [ht]
          simp
        · rw [hiu]
          exact List.mem_cons_self _ _
        · rw [hstab.2, getD_set_self_of_lt cp i _ 0 hlt2]
      · have hset : (st.set pu 1).getD i 0 = st.getD i 0 :=
          getD_set_of_ne st pu i 1 0 (fun e => hiu e.symm)
        have hf2 : ∀ q ∈ rest, (st.set pu 1).getD q.1 0 ≠ 0 := by
          intro q hq
          have hq0 := hf q (List.mem_cons_of_mem _ hq)
          have hne : pu ≠ q.1 := by
            intro e
            apply hq0
            rw [← e]
            exact hst0
          rw [getD_set_of_ne st pu q.1 1 0 hne]
          exact hq0
        have hlen2 : (cp.set pu (cp.getD pe 0 + d)).length = (st.set pu 1).length := by
          simp [hlen]
        obtain ⟨a1, a2, a3, a4, e, he, hM2, hcp⟩ :=
          ih (st.set pu 1) (cp.set pu (cp.getD pe 0 + d)) (ch ++ [pu])
            hf2 hlen2 i (by rw [hset]; exact hi)
        have hestat := hf (e, i) (List.mem_cons_of_mem _ he)
        have hne2 : pu ≠ e := by
          intro h2
          apply hestat
          rw [← h2]
          exact hst0
        have hcpe : (cp.set pu (cp.getD pe 0 + d)).getD e 0 = cp.getD e 0 :=
          getD_set_of_ne cp pu e _ 0 hne2
        rw [hset] at a1
        rw [hcpe] at hM2 hcp
        exact ⟨a1, a2, a3, a4, e, List.mem_cons_of_mem _ he, hM2, hcp⟩

/-- Every pair visited by a pass has its claiming cell in the frontier. -/
theorem pass_pairs_fst (P : Params) (d : ℚ) (ht : ℤ → ℤ → List ℕ) :
    ∀ frontier pr, pr ∈ pass_pairs P d ht frontier → pr.1 ∈ frontier := by
  intro frontier
  induction frontier with
  | nil => intro pr h; simp [pass_pairs] at h
  | cons e fr ih =>
    intro pr h
    rcases List.mem_append.mp h with hm | hm
    · obtain ⟨u, hu, he⟩ := List.mem_map.mp hm
      rw [← he]
      exact List.mem_cons_self _ _
    · exact List.mem_cons_of_mem _ (ih pr hm)

/-- The double loop of one pass equals the fold of try_claim over the
flattened pair list, visited in the same order. -/
theorem do_pass_eq (P : Params) (d plim : ℚ) (ht : ℤ → ℤ → List ℕ)
    (frontier st cp) :
    do_pass P d plim ht frontier st cp =
      process_pairs P d plim (pass_pairs P d ht frontier) (st, cp, []) := by
  have key : ∀ (fr : List ℕ) (s : List ℕ × List ℚ × List ℕ),
      fr.foldl (fun s2 elec => (get_unelectrified_rows ht elec P.x P.y d).foldl
        (fun s3 u => try_claim P d plim elec s3 u) s2) s =
      process_pairs P d plim (pass_pairs P d ht fr) s := by
    intro fr
    induction fr with
    | nil => intro s; rfl
    | cons e t ih =>
      intro s
      rw [List.foldl_cons, ih]
      show _ = process_pairs P d plim
        ((get_unelectrified_rows ht e P.x P.y d).map (fun u => (e, u)) ++
          pass_pairs P d ht t) s
      unfold process_pairs
      rw [List.foldl_append, List.foldl_map]
  exact key frontier (st, cp, [])

/-- Conservation at pass level: zero-status count plus changes length
is preserved by one pass. -/
theorem do_pass_conserve (P : Params) (d plim : ℚ) (ht : ℤ → ℤ → List ℕ)
    (frontier st cp) :
    (do_pass P d plim ht frontier st cp).1.count 0 +
      (do_pass P d plim ht frontier st cp).2.2.length = st.count 0 := by
  rw [do_pass_eq]
  have h := process_pairs_conserve P d plim (pass_pairs P d ht frontier) st cp []
  simpa using h

/-- Stability at pass level: a cell with nonzero status keeps its
status and cell_path entries across a pass. -/
theorem do_pass_stable (P : Params) (d plim : ℚ) (ht : ℤ → ℤ → List ℕ)
    (frontier st cp) (i : ℕ) (hi : st.getD i 0 ≠ 0) :
    (do_pass P d plim ht frontier st cp).1.getD i 0 = st.getD i 0 ∧
    (do_pass P d plim ht frontier st cp).2.1.getD i 0 = cp.getD i 0 := by
  rw [do_pass_eq]
  exact process_pairs_stable P d plim (pass_pairs P d ht frontier) st cp [] i hi

/-- Fuel irrelevance: any two fuel values above the count of zero
status entries give the same result, because each recursive step spends
at least one zero entry.  This is the termination argument of the while
loop on lines 107-128. -/
theorem elec_while_fuel_congr (P : Params) (d plim : ℚ) (ht : ℤ → ℤ → List ℕ) :
    ∀ n m frontier st cp, st.count 0 < n → st.count 0 < m →
      elec_while_fuel P d plim ht n frontier st cp =
      elec_while_fuel P d plim ht m frontier st cp := by
  intro n
  induction n with
  | zero => intro m frontier st cp hn; exact absurd hn (Nat.not_lt_zero _)
  | succ n ih =>
    intro m frontier st cp hn hm
    cases m with
    | zero => exact absurd hm (Nat.not_lt_zero _)
    | succ m =>
      by_cases hf : frontier.isEmpty
      · simp only [elec_while_fuel, hf, if_true]
      · by_cases hch : (do_pass P d plim ht frontier st cp).2.2.isEmpty
        · simp only [elec_while_fuel, hf, hch, if_true, if_false]
        · simp only [elec_while_fuel, hf, hch, if_true, if_false]
          have hc := do_pass_conserve P d plim ht frontier st cp
          have hpos : 0 < (do_pass P d plim ht frontier st cp).2.2.length := by
            rw [List.length_pos]
            intro he
            rw [← List.isEmpty_iff] at he
            exact hch he
          exact ih m _ _ _ (by omega) (by omega)

/-- Stability through the whole fueled loop: a cell with nonzero status
keeps that status to the end of the band. -/
theorem elec_while_fuel_stable (P : Params) (d plim : ℚ) (ht : ℤ → ℤ → List ℕ) :
    ∀ n frontier st cp i, st.getD i 0 ≠ 0 →
      (elec_while_fuel P d plim ht n frontier st cp).1.getD i 0 = st.getD i 0 := by
  intro n
  induction n with
  | zero => intro frontier st cp i hi; rfl
  | succ n ih =>
    intro frontier st cp i hi
    by_cases hf : frontier.isEmpty
    · simp only [elec_while_fuel, hf, if_true]
    · by_cases hch : (do_pass P d plim ht frontier st cp).2.2.isEmpty
      · simp only [elec_while_fuel, hf, hch, if_true, if_false]
        exact (do_pass_stable P d plim ht frontier st cp i hi).1
      · simp only [elec_while_fuel, hf, hch, if_true, if_false]
        have hp := (do_pass_stable P d plim ht frontier st cp i hi).1
        have h2 := ih (do_pass P d plim ht frontier st cp).2.2
          (do_pass P d plim ht frontier st cp).1
          (do_pass P d plim ht frontier st cp).2.1 i (by rw [hp]; exact hi)
        exact h2.trans hp

/-- Stability for one whole band. -/
theorem elec_band_stable (P : Params) (d plim : ℚ) (st cp) (i : ℕ)
    (hi : st.getD i 0 ≠ 0) :
    (elec_band P d plim st cp).1.getD i 0 = st.getD i 0 :=
  elec_while_fuel_stable P d plim _ _ _ st cp i hi

/-- Every output column of the band sequence preserves the nonzero
status entries of the state it started from. -/
theorem elec_bands_cols_stable (P : Params) :
    ∀ bands st cp c, c ∈ (elec_bands P bands st cp).1 →
      ∀ i, st.getD i 0 ≠ 0 → c.2.getD i 0 = st.getD i 0 := by
  intro bands
  induction bands with
  | nil => intro st cp c hc; simp [elec_bands] at hc
  | cons b rest ih =>
    intro st cp c hc i hi
    simp only [elec_bands, List.mem_cons] at hc
    rcases hc with he | hm
    · rw [he]
      exact elec_band_stable P b.1 b.2 st cp i hi
    · have h1 : (elec_band P b.1 b.2 st cp).1.getD i 0 = st.getD i 0 :=
        elec_band_stable P b.1 b.2 st cp i hi
      have h2 := ih (elec_band P b.1 b.2 st cp).1 (elec_band P b.1 b.2 st cp).2
        c hm i (by rw [h1]; exact hi)
      rw [h2, h1]

/-- Pairwise monotonicity of the output columns: a cell set to one in
an earlier column is one in every later column. -/
theorem elec_bands_pairwise (P : Params) :
    ∀ bands st cp,
      List.Pairwise (fun c1 c2 => ∀ i, c1.getD i 0 = 1 → c2.getD i 0 = 1)
        ((elec_bands P bands st cp).1.map Prod.snd) := by
  intro bands
  induction bands with
  | nil => intro st cp; simp [elec_bands]
  | cons b rest ih =>
    intro st cp
    simp only [elec_bands, List.map_cons]
    rw [List.pairwise_cons]
    constructor
    · intro c2 hc2 i h1
      obtain ⟨c, hc, he⟩ := List.mem_map.mp hc2
      rw [← he]
      have h2 := elec_bands_cols_stable P rest (elec_band P b.1 b.2 st cp).1
        (elec_band P b.1 b.2 st cp).2 c hc i (by rw [h1]; exact one_ne_zero)
      rw [h2]
      exact h1
    · exact ih _ _

/-- Fold invariant for the hash-table construction: looking up a bucket
after folding gives the initial content of that bucket followed by the
rows of the remaining list that hash into it, in list order. -/
theorem hash_foldl (x y : ℕ → ℚ) (d : ℚ) :
    ∀ (u : List ℕ) (tbl : ℤ → ℤ → List ℕ) (a b : ℤ),
      (u.foldl (fun t i => fun p q =>
          if pyInt (x i / d) = p ∧ pyInt (y i / d) = q then t p q ++ [i] else t p q)
        tbl) a b =
      tbl a b ++ u.filter (fun i => decide (pyInt (x i / d) = a ∧ pyInt (y i / d) = b)) := by
  intro u
  induction u with
  | nil => intro tbl a b; simp
  | cons i t ih =>
    intro tbl a b
    rw [List.foldl_cons, ih, List.filter_cons]
    by_cases h : pyInt (x i / d) = a ∧ pyInt (y i / d) = b
    · simp [h]
    · simp [h]

/-- A bucket of the built hash table holds exactly the unelectrified
rows hashing into that bucket, in input order. -/
theorem get_2d_hash_table_eq (x y : ℕ → ℚ) (u : List ℕ) (d : ℚ) (a b : ℤ) :
    get_2d_hash_table x y u d a b =
      u.filter (fun i => decide (pyInt (x i / d) = a ∧ pyInt (y i / d) = b)) := by
  unfold get_2d_hash_table
  rw [hash_foldl]
  simp

/-- Every index in either output of the enumeration helper is at least
the starting index. -/
theorem separate_go_bound :
    ∀ (l : List ℕ) (i j : ℕ),
      (j ∈ (separate_elec_status_go i l).1 → i ≤ j) ∧
      (j ∈ (separate_elec_status_go i l).2 → i ≤ j) := by
  intro l
  induction l with
  | nil => intro i j; simp [separate_elec_status_go]
  | cons s rest ih =>
    intro i j
    by_cases hs : s ≠ 0
    · simp only [separate_elec_status_go]
      rw [if_pos hs]
      simp only [List.mem_cons]
      constructor
      · intro h
        rcases h with he | hm
        · omega
        · have := (ih (i + 1) j).1 hm
          omega
      · intro hm
        have := (ih (i + 1) j).2 hm
        omega
    · simp only [separate_elec_status_go]
      rw [if_neg hs]
      simp only [List.mem_cons]
      constructor
      · intro hm
        have := (ih (i + 1) j).1 hm
        omega
      · intro h
        rcases h with he | hm
        · omega
        · have := (ih (i + 1) j).2 hm
          omega

/-- Both outputs of the enumeration helper are strictly increasing:
they keep the input row order. -/
theorem separate_go_sorted :
    ∀ (l : List ℕ) (i : ℕ),
      List.Sorted (· < ·) (separate_elec_status_go i l).1 ∧
      List.Sorted (· < ·) (separate_elec_status_go i l).2 := by
  intro l
  induction l with
  | nil => intro i; simp [separate_elec_status_go]
  | cons s rest ih =>
    intro i
    by_cases hs : s ≠ 0
    · simp only [separate_elec_status_go]
      rw [if_pos hs]
      constructor
      · rw [List.sorted_cons]
        refine ⟨fun b hb => ?_, (ih (i + 1)).1⟩
        have := (separate_go_bound rest (i + 1) b).1 hb
        omega
      · exact (ih (i + 1)).2
    · simp only [separate_elec_status_go]
      rw [if_neg hs]
      constructor
      · exact (ih (i + 1)).1
      · rw [List.sorted_cons]
        refine ⟨fun b hb => ?_, (ih (i + 1)).2⟩
        have := (separate_go_bound rest (i + 1) b).2 hb
        omega

/-- C1: evaluation of the reachability condition of lines 120-121 at
penalty 11/10, cost fraction 0, existing extension 0, distance limit
21/2, axis distances 10 and 0.  The code accepts the candidate because
the misplaced parenthesis leaves the x-axis term unscaled, while the
condition claimed by the specification, with the penalty on both axis
terms, rejects it: the penalty does not scale the x-axis term as it
scales the y-axis term. -/
theorem C1_reach_asymmetry :
    reach_condition (11 / 10) 0 0 (21 / 2) 10 0 = true ∧
    spec_reach_condition (11 / 10) 0 0 (21 / 2) 10 0 = false := by
  constructor
  · simp only [reach_condition, decide_eq_true_eq]
    norm_num
  · simp only [spec_reach_condition]
    rw [decide_eq_false_iff_not]
    norm_num

/-- C2 counterexample: with rows 0 and 1 unelectrified in input order
and cell 2 querying from the lower bucket, the candidate list comes
back as the list with 1 before 0, because the own bucket is extended
before the bucket above; so the candidate list of a frontier cell is
not iterated in the input order of the cells. -/
theorem C2_input_order_counterexample :
    List.Sorted (· < ·) [0, 1] ∧
    get_unelectrified_rows (get_2d_hash_table c2x c2y [0, 1] 1) 2 c2x c2y 1 = [1, 0] ∧
    ¬ List.Sorted (· < ·)
        (get_unelectrified_rows (get_2d_hash_table c2x c2y [0, 1] 1) 2 c2x c2y 1) := by
  have hq : get_unelectrified_rows (get_2d_hash_table c2x c2y [0, 1] 1) 2 c2x c2y 1
      = [1, 0] := by
    have hx2 : pyInt (c2x 2 / 1) = 0 := by norm_num [c2x, pyInt]
    have hy2 : pyInt (c2y 2 / 1) = 0 := by norm_num [c2y, pyInt]
    rw [get_unelectrified_rows, hx2, hy2]
    simp only [get_2d_hash_table_eq]
    norm_num [List.filter, c2x, c2y, pyInt]
  refine ⟨by decide, hq, ?_⟩
  rw [hq]
  simp [List.sorted_cons]

/-- C2 amended: the initial frontier and the initial unelectrified pool
are produced in strictly increasing input order; each hash bucket holds
the unelectrified rows hashing into it in input order, so a candidate
list is the concatenation of the nine bucket lists in the fixed bucket
order of the source; and the first claim of a candidate in processing
order wins: a cell with nonzero status keeps its status and its
cell_path entry through the rest of the pass. -/
theorem C2_order_first_wins (x y : ℕ → ℚ) (d : ℚ) (status unelec : List ℕ) (a b : ℤ) :
    List.Sorted (· < ·) (separate_elec_status status).1 ∧
    List.Sorted (· < ·) (separate_elec_status status).2 ∧
    get_2d_hash_table x y unelec d a b =
      unelec.filter (fun i => decide (pyInt (x i / d) = a ∧ pyInt (y i / d) = b)) ∧
    ∀ (P : Params) (plim : ℚ) (pairs : List (ℕ × ℕ)) (st : List ℕ) (cp : List ℚ)
      (ch : List ℕ) (u : ℕ), st.getD u 0 ≠ 0 →
        (process_pairs P d plim pairs (st, cp, ch)).1.getD u 0 = st.getD u 0 ∧
        (process_pairs P d plim pairs (st, cp, ch)).2.1.getD u 0 = cp.getD u 0 := by
  refine ⟨(separate_go_sorted status 0).1, (separate_go_sorted status 0).2,
    get_2d_hash_table_eq x y unelec d a b, ?_⟩
  intro P plim pairs st cp ch u hu
  exact process_pairs_stable P d plim pairs st cp ch u hu

/-- Witness for the amended C2 statement: the first-wins component
applied at a concrete electrified cell. -/
theorem C2_order_first_wins_witness :
    (process_pairs exParams 1 0 [] ([1], [0], [])).1.getD 0 0 = ([1] : List ℕ).getD 0 0 ∧
    (process_pairs exParams 1 0 [] ([1], [0], [])).2.1.getD 0 0 = ([0] : List ℚ).getD 0 0 :=
  (C2_order_first_wins c2x c2y 1 [1, 0] [0, 1] 0 0).2.2.2 exParams 0 [] [1] [0] [] 0
    (by decide)

/-- C6: with a positive bucket size, querying the index from an
eligible cell at its own position returns that cell among the
candidates, and the result is exactly the eligible cells whose bucket
lies in the three by three neighborhood of the querying bucket. -/
theorem C6_index_completeness (x y : ℕ → ℚ) (unelec : List ℕ) (d : ℚ) (i : ℕ)
    (hd : 0 < d) (hi : i ∈ unelec) :
    i ∈ get_unelectrified_rows (get_2d_hash_table x y unelec d) i x y d ∧
    ∀ u, u ∈ get_unelectrified_rows (get_2d_hash_table x y unelec d) i x y d ↔
      u ∈ unelec ∧
      (pyInt (x u / d) = pyInt (x i / d) ∨ pyInt (x u / d) = pyInt (x i / d) + 1 ∨
        pyInt (x u / d) = pyInt (x i / d) - 1) ∧
      (pyInt (y u / d) = pyInt (y i / d) ∨ pyInt (y u / d) = pyInt (y i / d) - 1 ∨
        pyInt (y u / d) = pyInt (y i / d) + 1) := by
  have key : ∀ u, u ∈ get_unelectrified_rows (get_2d_hash_table x y unelec d) i x y d ↔
      u ∈ unelec ∧
      (pyInt (x u / d) = pyInt (x i / d) ∨ pyInt (x u / d) = pyInt (x i / d) + 1 ∨
        pyInt (x u / d) = pyInt (x i / d) - 1) ∧
      (pyInt (y u / d) = pyInt (y i / d) ∨ pyInt (y u / d) = pyInt (y i / d) - 1 ∨
        pyInt (y u / d) = pyInt (y i / d) + 1) := by
    intro u
    unfold get_unelectrified_rows
    simp only [List.mem_append, get_2d_hash_table_eq, List.mem_filter, decide_eq_true_eq]
    constructor
    · rintro ((((((((⟨hu, hx, hy⟩ | ⟨hu, hx, hy⟩) | ⟨hu, hx, hy⟩) | ⟨hu, hx, hy⟩) |
        ⟨hu, hx, hy⟩) | ⟨hu, hx, hy⟩) | ⟨hu, hx, hy⟩) | ⟨hu, hx, hy⟩) | ⟨hu, hx, hy⟩) <;>
        exact ⟨hu, by omega, by omega⟩
    · rintro ⟨hu, hx | hx | hx, hy | hy | hy⟩
      · exact Or.inl (Or.inl (Or.inl (Or.inl (Or.inl (Or.inl (Or.inl (Or.inl
          ⟨hu, hx, hy⟩)))))))
      · exact Or.inl (Or.inl (Or.inl (Or.inl (Or.inl (Or.inl (Or.inl (Or.inr
          ⟨hu, hx, hy⟩)))))))
      · exact Or.inl (Or.inl (Or.inl (Or.inl (Or.inl (Or.inl (Or.inr ⟨hu, hx, hy⟩))))))
      · exact Or.inl (Or.inl (Or.inl (Or.inl (Or.inl (Or.inr ⟨hu, hx, hy⟩)))))
      · exact Or.inl (Or.inl (Or.inl (Or.inl (Or.inr ⟨hu, hx, hy⟩))))
      · exact Or.inl (Or.inl (Or.inl (Or.inr ⟨hu, hx, hy⟩)))
      · exact Or.inl (Or.inl (Or.inr ⟨hu, hx, hy⟩))
      · exact Or.inl (Or.inr ⟨hu, hx, hy⟩)
      · exact Or.inr ⟨hu, hx, hy⟩
  exact ⟨(key i).mpr ⟨hi, Or.inl rfl, Or.inl rfl⟩, key⟩

/-- Witness for C6 at a one-cell pool with bucket size one. -/
theorem C6_index_completeness_witness :
    0 ∈ get_unelectrified_rows (get_2d_hash_table c2x c2y [0] 1) 0 c2x c2y 1 :=
  (C6_index_completeness c2x c2y [0] 1 0 (by norm_num) (by simp)).1

/-- C3: across the output columns of a country run, in band order, a
cell whose column value is one stays one in every later column: the
electrified status never reverts within a run. -/
theorem C3_monotone_status (x y pop cls : ℕ → ℚ) (R M : ℚ)
    (elec_dists num_people : List ℚ) (status0 : List ℕ) :
    List.Pairwise (fun c1 c2 => ∀ i, c1.getD i 0 = 1 → c2.getD i 0 = 1)
      ((elec_single_country x y pop cls R M elec_dists num_people status0).1.map
        Prod.snd) := by
  unfold elec_single_country
  exact elec_bands_pairwise _ _ _ _

/-- Witness for C3 at a concrete two-cell country with one band. -/
theorem C3_monotone_status_witness :
    List.Pairwise (fun c1 c2 => ∀ i, c1.getD i 0 = 1 → c2.getD i 0 = 1)
      ((elec_single_country c2x c2y (fun _ => 5) (fun _ => 1) 1 50 [0, 1] [0]
        [1, 0]).1.map Prod.snd) :=
  C3_monotone_status c2x c2y (fun _ => 5) (fun _ => 1) 1 50 [0, 1] [0] [1, 0]

/-- C4: if a pass changes the status of a cell, then that cell started
unelectrified and ends electrified, its future population strictly
exceeds the band cutoff, it is appended to the next frontier, and some
frontier cell whose existing extension is strictly below the cap
claimed it, setting its extension to the existing length plus the band
distance; in particular no claim succeeds from a cell at or above the
cap.  Requires an electrified frontier and status and cell_path lists
of equal length, as elec_single_country always supplies. -/
theorem C4_claim_guard (P : Params) (d plim : ℚ) (ht : ℤ → ℤ → List ℕ)
    (frontier st : List ℕ) (cp : List ℚ)
    (hf : ∀ e ∈ frontier, st.getD e 0 ≠ 0) (hlen : cp.length = st.length) :
    ∀ i, (do_pass P d plim ht frontier st cp).1.getD i 0 ≠ st.getD i 0 →
      st.getD i 0 = 0 ∧
      (do_pass P d plim ht frontier st cp).1.getD i 0 = 1 ∧
      P.pop i > plim ∧
      i ∈ (do_pass P d plim ht frontier st cp).2.2 ∧
      ∃ e ∈ frontier, cp.getD e 0 < P.M ∧
        (do_pass P d plim ht frontier st cp).2.1.getD i 0 = cp.getD e 0 + d := by
  intro i hi
  rw [do_pass_eq] at hi ⊢
  obtain ⟨a1, a2, a3, a4, e, he, hM2, hcp⟩ :=
    process_pairs_claim P d plim (pass_pairs P d ht frontier) st cp []
      (fun pr hpr => hf pr.1 (pass_pairs_fst P d ht frontier pr hpr)) hlen i hi
  exact ⟨a1, a2, a3, a4, e, pass_pairs_fst P d ht frontier (e, i) he, hM2, hcp⟩

/-- Witness for C4: concrete pass in which cell 0 claims cell 1. -/
theorem C4_claim_guard_witness :
    ([1, 0] : List ℕ).getD 1 0 = 0 ∧
    (do_pass exParams 1 0 exHash [0] [1, 0] [0, 0]).1.getD 1 0 = 1 ∧
    exParams.pop 1 > 0 ∧
    1 ∈ (do_pass exParams 1 0 exHash [0] [1, 0] [0, 0]).2.2 ∧
    ∃ e ∈ [0], ([0, 0] : List ℚ).getD e 0 < exParams.M ∧
      (do_pass exParams 1 0 exHash [0] [1, 0] [0, 0]).2.1.getD 1 0 =
        ([0, 0] : List ℚ).getD e 0 + 1 := by
  have hdp : do_pass exParams 1 0 exHash [0] [1, 0] [0, 0] = ([1, 1], [0, 1], [1]) := by
    have hq : get_unelectrified_rows exHash 0 exParams.x exParams.y 1 = [1] := by
      have h0 : pyInt (exParams.x 0 / 1) = 0 := by norm_num [exParams, pyInt]
      have h1 : pyInt (exParams.y 0 / 1) = 0 := by norm_num [exParams, pyInt]
      rw [get_unelectrified_rows, h0, h1]
      norm_num [exHash]
    rw [do_pass, List.foldl_cons, hq]
    norm_num [try_claim, reach_condition, exParams]
  exact C4_claim_guard exParams 1 0 exHash [0] [1, 0] [0, 0] (by decide) rfl 1
    (by rw [hdp]; decide)

/-- C5: the ingredients of termination of the relaxation loop.  The
changes list of a pass has no duplicates, every cell in it went from
unelectrified to electrified during the pass, the zero-status count
decreases by exactly the length of the changes list, an empty frontier
returns the state unchanged for any fuel, and any two fuel values above
the count of zero-status entries give the same loop result: the loop
converges after at most that many passes. -/
theorem C5_relaxation_terminates (P : Params) (d plim : ℚ) (ht : ℤ → ℤ → List ℕ)
    (frontier st : List ℕ) (cp : List ℚ) :
    (do_pass P d plim ht frontier st cp).2.2.Nodup ∧
    (∀ u ∈ (do_pass P d plim ht frontier st cp).2.2,
      st.getD u 0 = 0 ∧ (do_pass P d plim ht frontier st cp).1.getD u 0 = 1) ∧
    ((do_pass P d plim ht frontier st cp).1.count 0 +
      (do_pass P d plim ht frontier st cp).2.2.length = st.count 0) ∧
    (∀ n st2 cp2, elec_while_fuel P d plim ht n [] st2 cp2 = (st2, cp2)) ∧
    (∀ n m, st.count 0 < n → st.count 0 < m →
      elec_while_fuel P d plim ht n frontier st cp =
      elec_while_fuel P d plim ht m frontier st cp) := by
  refine ⟨?_, ?_, do_pass_conserve P d plim ht frontier st cp, ?_, ?_⟩
  · rw [do_pass_eq]
    exact (process_pairs_ch_claimed P d plim (pass_pairs P d ht frontier) st cp []
      (by simp) List.nodup_nil).1
  · intro u hu
    rw [do_pass_eq] at hu
    constructor
    · rcases process_pairs_ch_origin P d plim (pass_pairs P d ht frontier) st cp [] u hu
        with h | h
      · simp at h
      · exact h
    · rw [do_pass_eq]
      exact (process_pairs_ch_claimed P d plim (pass_pairs P d ht frontier) st cp []
        (by simp) List.nodup_nil).2 u hu
  · intro n st2 cp2
    cases n with
    | zero => rfl
    | succ k => simp [elec_while_fuel]
  · intro n m hn hm
    exact elec_while_fuel_congr P d plim ht n m frontier st cp hn hm

/-- Witness for C5 at the concrete one-claim pass. -/
theorem C5_relaxation_terminates_witness :
    (do_pass exParams 1 0 exHash [0] [1, 0] [0, 0]).2.2.Nodup ∧
    (∀ u ∈ (do_pass exParams 1 0 exHash [0] [1, 0] [0, 0]).2.2,
      ([1, 0] : List ℕ).getD u 0 = 0 ∧
      (do_pass exParams 1 0 exHash [0] [1, 0] [0, 0]).1.getD u 0 = 1) ∧
    ((do_pass exParams 1 0 exHash [0] [1, 0] [0, 0]).1.count 0 +
      (do_pass exParams 1 0 exHash [0] [1, 0] [0, 0]).2.2.length =
        ([1, 0] : List ℕ).count 0) ∧
    (∀ n st2 cp2, elec_while_fuel exParams 1 0 exHash n [] st2 cp2 = (st2, cp2)) ∧
    (∀ n m, ([1, 0] : List ℕ).count 0 < n → ([1, 0] : List ℕ).count 0 < m →
      elec_while_fuel exParams 1 0 exHash n [0] [1, 0] [0, 0] =
      elec_while_fuel exParams 1 0 exHash m [0] [1, 0] [0, 0]) :=
  C5_relaxation_terminates exParams 1 0 exHash [0] [1, 0] [0, 0]

/-- C7: for every row, the computed baseline flag is one exactly when
the current status is one, or the planned grid distance is under the
band-4 distance and the future population over the band-4 cutoff, or
the same at band 9; otherwise the flag is zero. -/
theorem C7_baseline_flag (rows : List Settlement) (dists : List ℚ) (np_c : ℚ → ℚ) :
    List.Forall₂
      (fun r f =>
        (f = 1 ↔ (r.elec_current = 1 ∨
          (r.grid_dist_planned < dists.getD 4 0 ∧ r.pop_future > np_c (dists.getD 4 0)) ∨
          (r.grid_dist_planned < dists.getD 9 0 ∧
            r.pop_future > np_c (dists.getD 9 0)))) ∧
        (f = 0 ↔ ¬ (r.elec_current = 1 ∨
          (r.grid_dist_planned < dists.getD 4 0 ∧ r.pop_future > np_c (dists.getD 4 0)) ∨
          (r.grid_dist_planned < dists.getD 9 0 ∧
            r.pop_future > np_c (dists.getD 9 0)))))
      rows (classify_country rows dists np_c) := by
  induction rows with
  | nil => exact List.Forall₂.nil
  | cons r rest ih =>
    refine List.Forall₂.cons ?_ ih
    unfold pre_elec_status
    dsimp only
    by_cases h : r.elec_current = 1 ∨
        (r.grid_dist_planned < dists.getD 4 0 ∧ r.pop_future > np_c (dists.getD 4 0)) ∨
        (r.grid_dist_planned < dists.getD 9 0 ∧ r.pop_future > np_c (dists.getD 9 0))
    · rw [if_pos h]
      exact ⟨iff_of_true rfl h, iff_of_false one_ne_zero (not_not_intro h)⟩
    · rw [if_neg h]
      exact ⟨iff_of_false zero_ne_one h, iff_of_true rfl h⟩

/-- Witness for C7 at a one-row table whose row is currently
electrified. -/
theorem C7_baseline_flag_witness :
    List.Forall₂
      (fun r f =>
        (f = 1 ↔ (Settlement.elec_current r = 1 ∨
          (Settlement.grid_dist_planned r < ([] : List ℚ).getD 4 0 ∧
            Settlement.pop_future r > 0) ∨
          (Settlement.grid_dist_planned r < ([] : List ℚ).getD 9 0 ∧
            Settlement.pop_future r > 0))) ∧
        (f = 0 ↔ ¬ (Settlement.elec_current r = 1 ∨
          (Settlement.grid_dist_planned r < ([] : List ℚ).getD 4 0 ∧
            Settlement.pop_future r > 0) ∨
          (Settlement.grid_dist_planned r < ([] : List ℚ).getD 9 0 ∧
            Settlement.pop_future r > 0))))
      [⟨"a", 0, 0, 5, 1, 1, 0⟩]
      (classify_country [⟨"a", 0, 0, 5, 1, 1, 0⟩] [] (fun _ => 0)) :=
  C7_baseline_flag [⟨"a", 0, 0, 5, 1, 1, 0⟩] [] (fun _ => 0)

/-- C8: run_elec validates before running.  A missing cutoff table
yields the configuration error, a non-sentinel selection outside the
known countries yields the selection error, and a successful result
exists exactly when neither failure applies: on failure no output is
produced and no country is processed. -/
theorem C8_preflight (inp : RunInputs) (sel : String) :
    (inp.num_people_exists = false →
      run_elec_model inp sel = Except.error RunError.configMissing) ∧
    (inp.num_people_exists = true → sel ≠ "all" → sel ∉ inp.np_countries →
      run_elec_model inp sel = Except.error RunError.invalidSelection) ∧
    ((∃ out, run_elec_model inp sel = Except.ok out) ↔
      (inp.num_people_exists = true ∧ (sel = "all" ∨ sel ∈ inp.np_countries))) := by
  unfold run_elec_model
  refine ⟨fun h => by rw [if_pos h], fun h1 h2 h3 => ?_, ?_⟩
  · rw [if_neg (by simp [h1]), if_pos h2, if_neg h3]
  · by_cases h1 : inp.num_people_exists = false
    · rw [if_pos h1]
      simp [h1]
    · rw [if_neg h1]
      have h1t : inp.num_people_exists = true := by
        cases hb : inp.num_people_exists
        · exact absurd hb h1
        · rfl
      by_cases h2 : sel ≠ "all"
      · rw [if_pos h2]
        by_cases h3 : sel ∈ inp.np_countries
        · rw [if_pos h3]
          simp [h1t, h3]
        · rw [if_neg h3]
          simp [h1t, h3, h2]
      · rw [if_neg h2]
        push_neg at h2
        simp [h1t, h2]

/-- Witness for C8: a selection outside the known countries aborts with
the selection error. -/
theorem C8_preflight_witness :
    run_elec_model exInputs "b" = Except.error RunError.invalidSelection :=
  (C8_preflight exInputs "b").2.1 rfl (by decide) (by decide)

/-- C9: the per-country computation is deterministic: pointwise equal
input columns give equal output columns and equal final status and
cell_path state. -/
theorem C9_deterministic (x x2 y y2 pop pop2 cls cls2 : ℕ → ℚ) (R M : ℚ)
    (elec_dists num_people : List ℚ) (status0 : List ℕ)
    (hx : ∀ i, x i = x2 i) (hy : ∀ i, y i = y2 i)
    (hp : ∀ i, pop i = pop2 i) (hc : ∀ i, cls i = cls2 i) :
    elec_single_country x y pop cls R M elec_dists num_people status0 =
      elec_single_country x2 y2 pop2 cls2 R M elec_dists num_people status0 := by
  have ex : x = x2 := funext hx
  have ey : y = y2 := funext hy
  have ep : pop = pop2 := funext hp
  have ec : cls = cls2 := funext hc
  rw [ex, ey, ep, ec]

/-- Witness for C9 at concrete equal inputs. -/
theorem C9_deterministic_witness :
    elec_single_country c2x c2y (fun _ => 5) (fun _ => 1) 1 50 [0, 1] [0] [1, 0] =
      elec_single_country c2x c2y (fun _ => 5) (fun _ => 1) 1 50 [0, 1] [0] [1, 0] :=
  C9_deterministic c2x c2x c2y c2y (fun _ => 5) (fun _ => 5) (fun _ => 1) (fun _ => 1)
    1 50 [0, 1] [0] [1, 0] (fun _ => rfl) (fun _ => rfl) (fun _ => rfl) (fun _ => rfl)

/-- C10: the guarded form of the penalty of line 95 succeeds exactly
when the classification is nonzero, and any produced penalty is at
least one and agrees with the unguarded formula; at classification zero
the error branch of the division is reached. -/
theorem C10_penalty_guard (c : ℚ) :
    ((grid_penalty_checked c).isSome = true ↔ c ≠ 0) ∧
    (∀ p, grid_penalty_checked c = some p → 1 ≤ p ∧ p = grid_penalty c) := by
  constructor
  · unfold grid_penalty_checked checked_div
    by_cases h : c = 0
    · simp [h]
    · have h2 : c ^ 2 ≠ 0 := pow_ne_zero 2 h
      simp [h2, h]
  · intro p hp
    unfold grid_penalty_checked checked_div at hp
    by_cases h : c ^ 2 = 0
    · rw [if_pos h] at hp
      simp at hp
    · rw [if_neg h] at hp
      rw [Option.map_some'] at hp
      have hpe := (Option.some.injEq _ _).mp hp
      constructor
      · have h0 : 0 ≤ (1 / 10 : ℚ) / c ^ 2 := div_nonneg (by norm_num) (sq_nonneg c)
        rw [← hpe]
        linarith
      · rw [← hpe]
        unfold grid_penalty
        rfl

/-- Witness for C10 at classification 3. -/
theorem C10_penalty_guard_witness :
    (grid_penalty_checked 3).isSome = true ∧ 1 ≤ grid_penalty 3 := by
  have h := C10_penalty_guard 3
  have hsome : grid_penalty_checked 3 = some (grid_penalty 3) := by
    norm_num [grid_penalty_checked, checked_div, grid_penalty]
  exact ⟨h.1.mpr (by norm_num), (h.2 (grid_penalty 3) hsome).1⟩

end PyOnSSET
